import Mathlib

/-!
# Verification of the scafaps alignment engine

Shallow embedding of the alignment engine of `src/tool/src/scafaps.py`:
the prefix fast-path (`compute_initial_matching_sequence`, lines 93-101),
the LCS table builder (`compute_lcs_table`, lines 110-118) and the
backtrace reconstructor (`show_diffs_from_lcs_table`, lines 124-196),
plus the verbosity-gated rendering helpers (`get_log_string`, lines 19-26,
and `get_line_outstring`, lines 80-81).

Per the specification the engine treats each suppression's compiled regular
expression as an opaque predicate.  The embedding therefore abstracts the
match test `regexps[i].regexp.fullmatch(lines[j].content)` as an arbitrary
Boolean function `mb : Nat → Nat → Bool` applied to the zero-based indices
`i` (suppression) and `j` (input line), together with the two sequence
lengths `S` (number of suppressions) and `L` (number of input lines).
A second, record-level model (`Regexp`, `Line`, `mbOf`) is used where a
claim is about the concrete rendering helpers and their globals.
-/

namespace Scafaps

set_option maxRecDepth 4096

/-- The classification result of one backtrace loop iteration: the Python
constants `MATCH`, `UNMATCHED_SUPPRESSION`, `UNMATCHED_INPUT_LINE`
(lines 138-140) together with the indices that the corresponding branch of
lines 174-189 reads (`i-1` and/or `j-1` at the moment of emission). -/
inductive DiffEvent where
  | Match : Nat → Nat → DiffEvent
  | UnmatchedSuppression : Nat → DiffEvent
  | UnmatchedLine : Nat → DiffEvent
deriving DecidableEq

/-- Inner loop of `compute_lcs_table` (lines 112-117): one row of the table.
`prev` is the previous row (`array[i-1]`), `i` the zero-based row index being
filled; the `j+1` case is the loop body at line 114-117 with
`array[i][j-1]` = `lcsRow mb prev i j` and `array[i-1][j]` = `prev (j+1)`. -/
def lcsRow (mb : Nat → Nat → Bool) (prev : Nat → Nat) (i : Nat) : Nat → Nat
  | 0 => 0
  | j + 1 => if mb i j then prev j + 1 else max (lcsRow mb prev i j) (prev (j + 1))

/-- `compute_lcs_table` (lines 110-118), as the function
`(i, j) ↦ array[i][j]` of the array it builds: row 0 is all zeroes
(line 111), and row `i+1` is filled from row `i` by the inner loop. -/
def compute_lcs_table (mb : Nat → Nat → Bool) : Nat → Nat → Nat
  | 0 => fun _ => 0
  | i + 1 => lcsRow mb (compute_lcs_table mb i) i

theorem compute_lcs_table_zero_left (mb : Nat → Nat → Bool) (j : Nat) :
    compute_lcs_table mb 0 j = 0 := rfl

theorem compute_lcs_table_zero_right (mb : Nat → Nat → Bool) (i : Nat) :
    compute_lcs_table mb i 0 = 0 := by
  cases i <;> rfl

/-- The cell equation of lines 114-117. -/
theorem compute_lcs_table_succ_succ (mb : Nat → Nat → Bool) (i j : Nat) :
    compute_lcs_table mb (i + 1) (j + 1) =
      if mb i j then compute_lcs_table mb i j + 1
      else max (compute_lcs_table mb (i + 1) j) (compute_lcs_table mb i (j + 1)) := rfl

/-- One iteration of the backtrace loop of `show_diffs_from_lcs_table`
(the discrimination chain of lines 143-171 together with the cursor update
of lines 174-189): given the cursor `(i, j)`, returns the emitted event and
the new cursor.  Only called while `i > 0 or j > 0` (line 132). -/
def codeStep (mb : Nat → Nat → Bool) (t : Nat → Nat → Nat) (i j : Nat) :
    DiffEvent × Nat × Nat :=
  if i = 0 then (.UnmatchedLine (j - 1), i, j - 1)
  else if j = 0 then (.UnmatchedSuppression (i - 1), i - 1, j)
  else if mb (i - 1) (j - 1) then
    if t i (j - 1) = t i j then (.UnmatchedLine (j - 1), i, j - 1)
    else if t (i - 1) j = t i j then (.UnmatchedSuppression (i - 1), i - 1, j)
    else (.Match (i - 1) (j - 1), i - 1, j - 1)
  else if t i (j - 1) > t (i - 1) j then (.UnmatchedLine (j - 1), i, j - 1)
  else if t i (j - 1) = t (i - 1) j then (.UnmatchedLine (j - 1), i, j - 1)
  else (.UnmatchedSuppression (i - 1), i - 1, j)

/-- The backtrace loop of lines 130-192, fueled so that the recursion is
structural: each iteration strictly decreases `i + j`, so any fuel
`≥ i + j` yields the loop's full event sequence.  The returned list is in
emission order, i.e. reverse chronological order (the Python
`reversed_output`, restricted to the events themselves). -/
def showDiffsAux (mb : Nat → Nat → Bool) (t : Nat → Nat → Nat) :
    Nat → Nat → Nat → List DiffEvent
  | 0, _, _ => []
  | fuel + 1, i, j =>
    if i = 0 ∧ j = 0 then []
    else
      let s := codeStep mb t i j
      s.1 :: showDiffsAux mb t fuel s.2.1 s.2.2

/-- `show_diffs_from_lcs_table` (lines 124-196), reduced to its event
classification: the sequence of per-iteration results in output order
(the final `reversed(reversed_output)` of line 194 puts events in
ascending order, which is the reverse of emission order). -/
def show_diffs_from_lcs_table (mb : Nat → Nat → Bool) (t : Nat → Nat → Nat)
    (S L : Nat) : List DiffEvent :=
  (showDiffsAux mb t (S + L) S L).reverse

/-- Tag test for `Match` events. -/
def isMatchEvent : DiffEvent → Bool
  | .Match _ _ => true
  | _ => false

/-- Tag test for `UnmatchedSuppression` events. -/
def isUnmatchedSuppressionEvent : DiffEvent → Bool
  | .UnmatchedSuppression _ => true
  | _ => false

/-- Tag test for `UnmatchedLine` events. -/
def isUnmatchedLineEvent : DiffEvent → Bool
  | .UnmatchedLine _ => true
  | _ => false

/-- Number of `MATCH` classifications among the events. -/
def countMatches (es : List DiffEvent) : Nat := es.countP isMatchEvent

/-- The counters returned by `show_diffs_from_lcs_table` (line 196):
`(unmatched_regexps, unmatched_lines)`, i.e. one increment per
`UNMATCHED_SUPPRESSION` (line 177) resp. `UNMATCHED_INPUT_LINE`
(line 182) iteration. -/
def diffCounts (es : List DiffEvent) : Nat × Nat :=
  (es.countP isUnmatchedSuppressionEvent, es.countP isUnmatchedLineEvent)

/-- The suppression index carried by an event, if any. -/
def supIndex : DiffEvent → Option Nat
  | .Match s _ => some s
  | .UnmatchedSuppression s => some s
  | .UnmatchedLine _ => none

/-- The line index carried by an event, if any. -/
def lineIndex : DiffEvent → Option Nat
  | .Match _ l => some l
  | .UnmatchedSuppression _ => none
  | .UnmatchedLine l => some l

/-- All suppression indices of an event list, in order. -/
def supIndices (es : List DiffEvent) : List Nat := es.filterMap supIndex

/-- All line indices of an event list, in order. -/
def lineIndices (es : List DiffEvent) : List Nat := es.filterMap lineIndex

/-- The matched (suppression, line) index pairs of an event list, in order. -/
def matchPairs (es : List DiffEvent) : List (Nat × Nat) :=
  es.filterMap fun e => match e with
    | .Match s l => some (s, l)
    | _ => none

/-- Loop of `compute_initial_matching_sequence` (lines 94-99): `idx` is the
current index, the fuel is the number of remaining `zip` iterations; on a
mismatch the current index is returned (line 99), on exhaustion the index
reached, which is `min |regexps| |lines|` when started at 0 (line 101). -/
def cimsAux (mb : Nat → Nat → Bool) (idx : Nat) : Nat → Nat
  | 0 => idx
  | fuel + 1 => if mb idx idx then cimsAux mb (idx + 1) fuel else idx

/-- `compute_initial_matching_sequence` (lines 93-101): the length of the
lock-step matching prefix, scanning from index 0. -/
def compute_initial_matching_sequence (mb : Nat → Nat → Bool) (S L : Nat) : Nat :=
  cimsAux mb 0 (min S L)

/-- Restriction of the match relation to the residual sequences after
dropping `d` elements from the front of both (the slicing
`regexps[skip:]`, `lines[skip:]` of lines 283-284): residual index `k`
names original index `k + d`. -/
def mbShift (d : Nat) (mb : Nat → Nat → Bool) : Nat → Nat → Bool :=
  fun i j => mb (i + d) (j + d)

/-- Renaming of residual-sequence indices back to original indices (the
sliced lists of lines 283-284 contain the same `Regexp`/`Line` objects, so
residual index `k` denotes original index `k + d`). -/
def shiftEvent (d : Nat) : DiffEvent → DiffEvent
  | .Match s l => .Match (s + d) (l + d)
  | .UnmatchedSuppression s => .UnmatchedSuppression (s + d)
  | .UnmatchedLine l => .UnmatchedLine (l + d)

/-- The full engine pipeline of `run_scafaps` (lines 281-289): the fast-path
prefix matches (one `Match k k` per index consumed by
`compute_initial_matching_sequence`, cf. `show_match` at line 96), followed
by the backtrace over the truncated sequences, expressed in original
indices. -/
def engine_events (mb : Nat → Nat → Bool) (S L : Nat) : List DiffEvent :=
  let skip := compute_initial_matching_sequence mb S L
  ((List.range skip).map fun k => DiffEvent.Match k k) ++
    (show_diffs_from_lcs_table (mbShift skip mb) (compute_lcs_table (mbShift skip mb))
      (S - skip) (L - skip)).map (shiftEvent skip)

/-- Strict increase in both components, the order constraint on matched
pairs (`s_1 < s_2 < …` and `l_1 < l_2 < …`). -/
def incPair (p q : Nat × Nat) : Prop := p.1 < q.1 ∧ p.2 < q.2

instance : DecidableRel incPair := fun _ _ => instDecidableAnd

/-- `ps` is a valid alignment of the first `i` suppressions with the first
`j` lines: a sequence of index pairs, strictly increasing in both
components (hence index-disjoint and order-preserving), every pair within
range and related by the match predicate. -/
def isAlignment (mb : Nat → Nat → Bool) (i j : Nat) (ps : List (Nat × Nat)) : Prop :=
  ps.Pairwise incPair ∧ ∀ p ∈ ps, p.1 < i ∧ p.2 < j ∧ mb p.1 p.2 = true

instance (mb : Nat → Nat → Bool) (i j : Nat) (ps : List (Nat × Nat)) :
    Decidable (isAlignment mb i j ps) := by
  unfold isAlignment
  infer_instance

/-! ## Shape analysis of one backtrace iteration -/

/-- Every backtrace iteration has one of three shapes: consume a line
(emit `UnmatchedLine (j-1)`, move to `(i, j-1)`), consume a suppression
(emit `UnmatchedSuppression (i-1)`, move to `(i-1, j)`), or consume both
(emit `Match (i-1) (j-1)`, move to `(i-1, j-1)`). -/
theorem codeStep_cases (mb : Nat → Nat → Bool) (t : Nat → Nat → Nat) (i j : Nat)
    (h : ¬(i = 0 ∧ j = 0)) :
    (0 < j ∧ codeStep mb t i j = (.UnmatchedLine (j - 1), i, j - 1)) ∨
    (0 < i ∧ codeStep mb t i j = (.UnmatchedSuppression (i - 1), i - 1, j)) ∨
    (0 < i ∧ 0 < j ∧ mb (i - 1) (j - 1) = true ∧
      codeStep mb t i j = (.Match (i - 1) (j - 1), i - 1, j - 1)) := by
  by_cases hi : i = 0
  · subst hi
    exact Or.inl ⟨by omega, by simp [codeStep]⟩
  · by_cases hj : j = 0
    · subst hj
      exact Or.inr (Or.inl ⟨by omega, by simp [codeStep, hi]⟩)
    · simp only [codeStep, if_neg hi, if_neg hj]
      by_cases hm : mb (i - 1) (j - 1)
      · simp only [if_pos hm]
        by_cases h1 : t i (j - 1) = t i j
        · exact Or.inl ⟨by omega, by simp [h1]⟩
        · by_cases h2 : t (i - 1) j = t i j
          · exact Or.inr (Or.inl ⟨by omega, by simp [h1, h2]⟩)
          · exact Or.inr (Or.inr ⟨by omega, by omega, hm, by simp [h1, h2]⟩)
      · simp only [if_neg hm]
        by_cases h3 : t i (j - 1) > t (i - 1) j
        · exact Or.inl ⟨by omega, by simp [h3]⟩
        · by_cases h4 : t i (j - 1) = t (i - 1) j
          · exact Or.inl ⟨by omega, by simp [h3, h4]⟩
          · exact Or.inr (Or.inl ⟨by omega, by simp [h3, h4]⟩)

/-- Unfolding of one backtrace iteration while the loop condition holds. -/
theorem showDiffsAux_succ (mb : Nat → Nat → Bool) (t : Nat → Nat → Nat)
    (fuel i j : Nat) (h : ¬(i = 0 ∧ j = 0)) :
    showDiffsAux mb t (fuel + 1) i j =
      (codeStep mb t i j).1 ::
        showDiffsAux mb t fuel (codeStep mb t i j).2.1 (codeStep mb t i j).2.2 := by
  simp [showDiffsAux, h]

/-! ## Event coverage of the backtrace -/

/-- The backtrace from cursor `(i, j)` emits the suppression indices
`i-1, …, 0` and the line indices `j-1, …, 0`, each exactly once, in
descending order, for any table. -/
theorem showDiffsAux_indices (mb : Nat → Nat → Bool) (t : Nat → Nat → Nat) :
    ∀ fuel i j, i + j ≤ fuel →
      supIndices (showDiffsAux mb t fuel i j) = (List.range i).reverse ∧
      lineIndices (showDiffsAux mb t fuel i j) = (List.range j).reverse := by
  intro fuel
  induction fuel with
  | zero =>
    intro i j h
    have hi : i = 0 := by omega
    have hj : j = 0 := by omega
    subst hi; subst hj
    simp [showDiffsAux, supIndices, lineIndices]
  | succ fuel ih =>
    intro i j h
    by_cases h0 : i = 0 ∧ j = 0
    · rcases h0 with ⟨rfl, rfl⟩
      simp [showDiffsAux, supIndices, lineIndices]
    · rw [showDiffsAux_succ mb t fuel i j h0]
      rcases codeStep_cases mb t i j h0 with ⟨hj, hs⟩ | ⟨hi, hs⟩ | ⟨hi, hj, _, hs⟩
      · obtain ⟨j', rfl⟩ : ∃ j', j = j' + 1 := ⟨j - 1, by omega⟩
        obtain ⟨ihs, ihl⟩ := ih i j' (by omega)
        rw [hs]
        constructor
        · simpa [supIndices, supIndex] using ihs
        · simp only [lineIndices, List.filterMap_cons, lineIndex, Nat.add_sub_cancel]
          rw [List.range_succ, List.reverse_append]
          simpa [lineIndices] using ihl
      · obtain ⟨i', rfl⟩ : ∃ i', i = i' + 1 := ⟨i - 1, by omega⟩
        obtain ⟨ihs, ihl⟩ := ih i' j (by omega)
        rw [hs]
        constructor
        · simp only [supIndices, List.filterMap_cons, supIndex, Nat.add_sub_cancel]
          rw [List.range_succ, List.reverse_append]
          simpa [supIndices] using ihs
        · simpa [lineIndices, lineIndex] using ihl
      · obtain ⟨i', rfl⟩ : ∃ i', i = i' + 1 := ⟨i - 1, by omega⟩
        obtain ⟨j', rfl⟩ : ∃ j', j = j' + 1 := ⟨j - 1, by omega⟩
        obtain ⟨ihs, ihl⟩ := ih i' j' (by omega)
        rw [hs]
        constructor
        · simp only [supIndices, List.filterMap_cons, supIndex, Nat.add_sub_cancel]
          rw [List.range_succ, List.reverse_append]
          simpa [supIndices] using ihs
        · simp only [lineIndices, List.filterMap_cons, lineIndex, Nat.add_sub_cancel]
          rw [List.range_succ, List.reverse_append]
          simpa [lineIndices] using ihl

/-- `filterMap` commutes with `reverse`. -/
theorem filterMap_rev {α β : Type} (f : α → Option β) (l : List α) :
    l.reverse.filterMap f = (l.filterMap f).reverse := by
  induction l with
  | nil => rfl
  | cons a l ih =>
    rw [List.reverse_cons, List.filterMap_append, ih, List.filterMap_cons]
    cases h : f a <;> simp [h]

/-- The output-order event list covers suppression indices `0, …, S-1` and
line indices `0, …, L-1`, in ascending order, each exactly once. -/
theorem show_diffs_indices (mb : Nat → Nat → Bool) (t : Nat → Nat → Nat) (S L : Nat) :
    supIndices (show_diffs_from_lcs_table mb t S L) = List.range S ∧
    lineIndices (show_diffs_from_lcs_table mb t S L) = List.range L := by
  obtain ⟨hs, hl⟩ := showDiffsAux_indices mb t (S + L) S L le_rfl
  constructor
  · rw [show_diffs_from_lcs_table, supIndices, filterMap_rev]
    rw [supIndices] at hs
    rw [hs, List.reverse_reverse]
  · rw [show_diffs_from_lcs_table, lineIndices, filterMap_rev]
    rw [lineIndices] at hl
    rw [hl, List.reverse_reverse]

/-- Each event carries a suppression index iff it is a `Match` or an
`UnmatchedSuppression`, so the indices and the tallies agree. -/
theorem supIndices_length (es : List DiffEvent) :
    (supIndices es).length = countMatches es + es.countP isUnmatchedSuppressionEvent := by
  induction es with
  | nil => rfl
  | cons e es ih =>
    cases e <;>
      simp [supIndices, supIndex, countMatches, isMatchEvent,
        isUnmatchedSuppressionEvent, List.countP_cons, List.filterMap_cons] <;>
      simp [supIndices, countMatches] at ih <;> omega

/-- Each event carries a line index iff it is a `Match` or an
`UnmatchedLine`, so the indices and the tallies agree. -/
theorem lineIndices_length (es : List DiffEvent) :
    (lineIndices es).length = countMatches es + es.countP isUnmatchedLineEvent := by
  induction es with
  | nil => rfl
  | cons e es ih =>
    cases e <;>
      simp [lineIndices, lineIndex, countMatches, isMatchEvent,
        isUnmatchedLineEvent, List.countP_cons, List.filterMap_cons] <;>
      simp [lineIndices, countMatches] at ih <;> omega

/-- Every event has exactly one of the three tags. -/
theorem length_eq_counts (es : List DiffEvent) :
    es.length = countMatches es + es.countP isUnmatchedSuppressionEvent +
      es.countP isUnmatchedLineEvent := by
  induction es with
  | nil => rfl
  | cons e es ih =>
    cases e <;>
      simp [countMatches, isMatchEvent, isUnmatchedSuppressionEvent,
        isUnmatchedLineEvent, List.countP_cons] <;>
      simp [countMatches] at ih <;> omega

/-! ## Optimality of the LCS table -/

/-- Achievability: for every cell there is a valid alignment whose size is
exactly the table value. -/
theorem lcs_achieve (mb : Nat → Nat → Bool) :
    ∀ n i j, i + j ≤ n →
      ∃ ps, isAlignment mb i j ps ∧ ps.length = compute_lcs_table mb i j := by
  intro n
  induction n with
  | zero =>
    intro i j h
    have hi : i = 0 := by omega
    subst hi
    exact ⟨[], ⟨List.Pairwise.nil, by simp⟩, by simp [compute_lcs_table_zero_left]⟩
  | succ n ih =>
    intro i j h
    match i, j with
    | 0, j =>
      exact ⟨[], ⟨List.Pairwise.nil, by simp⟩, by simp [compute_lcs_table_zero_left]⟩
    | i + 1, 0 =>
      exact ⟨[], ⟨List.Pairwise.nil, by simp⟩, by simp [compute_lcs_table_zero_right]⟩
    | i + 1, j + 1 =>
      by_cases hm : mb i j = true
      · obtain ⟨ps, ⟨hpw, hmem⟩, hlen⟩ := ih i j (by omega)
        refine ⟨ps ++ [(i, j)], ⟨?_, ?_⟩, ?_⟩
        · rw [List.pairwise_append]
          refine ⟨hpw, List.pairwise_singleton _ _, ?_⟩
          intro a ha b hb
          rw [List.mem_singleton] at hb
          subst hb
          exact ⟨(hmem a ha).1, (hmem a ha).2.1⟩
        · intro p hp
          rcases List.mem_append.mp hp with hp | hp
          · obtain ⟨h1, h2, h3⟩ := hmem p hp
            exact ⟨by omega, by omega, h3⟩
          · rw [List.mem_singleton] at hp
            subst hp
            exact ⟨by omega, by omega, hm⟩
        · rw [List.length_append, hlen, List.length_singleton,
            compute_lcs_table_succ_succ, if_pos hm]
      · have hcell : compute_lcs_table mb (i + 1) (j + 1) =
            max (compute_lcs_table mb (i + 1) j) (compute_lcs_table mb i (j + 1)) := by
          rw [compute_lcs_table_succ_succ, if_neg hm]
        rcases le_total (compute_lcs_table mb (i + 1) j)
            (compute_lcs_table mb i (j + 1)) with hle | hle
        · obtain ⟨ps, ⟨hpw, hmem⟩, hlen⟩ := ih i (j + 1) (by omega)
          refine ⟨ps, ⟨hpw, ?_⟩, ?_⟩
          · intro p hp
            obtain ⟨h1, h2, h3⟩ := hmem p hp
            exact ⟨by omega, h2, h3⟩
          · rw [hlen, hcell, Nat.max_eq_right hle]
        · obtain ⟨ps, ⟨hpw, hmem⟩, hlen⟩ := ih (i + 1) j (by omega)
          refine ⟨ps, ⟨hpw, ?_⟩, ?_⟩
          · intro p hp
            obtain ⟨h1, h2, h3⟩ := hmem p hp
            exact ⟨h1, by omega, h3⟩
          · rw [hlen, hcell, Nat.max_eq_left hle]

/-- Upper bound: no valid alignment of the first `i` suppressions with the
first `j` lines is larger than the table value. -/
theorem lcs_ub (mb : Nat → Nat → Bool) :
    ∀ n i j ps, i + j ≤ n → isAlignment mb i j ps →
      ps.length ≤ compute_lcs_table mb i j := by
  intro n
  induction n with
  | zero =>
    intro i j ps h hal
    have hi : i = 0 := by omega
    subst hi
    cases ps with
    | nil => simp
    | cons p l => exact absurd (hal.2 p (List.mem_cons_self _ _)).1 (Nat.not_lt_zero _)
  | succ n ih =>
    intro i j ps h hal
    match i, j with
    | 0, j =>
      cases ps with
      | nil => simp
      | cons p l => exact absurd (hal.2 p (List.mem_cons_self _ _)).1 (Nat.not_lt_zero _)
    | i + 1, 0 =>
      cases ps with
      | nil => simp
      | cons p l => exact absurd (hal.2 p (List.mem_cons_self _ _)).2.1 (Nat.not_lt_zero _)
    | i + 1, j + 1 =>
      rcases ps.eq_nil_or_concat with rfl | ⟨qs, p, rfl⟩
      · simp
      · rw [List.concat_eq_append] at hal ⊢
        obtain ⟨hpw, hmem⟩ := hal
        have hpw' := hpw
        rw [List.pairwise_append] at hpw'
        obtain ⟨hq_pw, _, hrel⟩ := hpw'
        obtain ⟨hp1, hp2, hpm⟩ := hmem p (by simp)
        by_cases hm : mb i j = true
        · have hqs : isAlignment mb i j qs := by
            refine ⟨hq_pw, ?_⟩
            intro a ha
            have har := hrel a ha p (by simp)
            have har1 := har.1
            have har2 := har.2
            exact ⟨by omega, by omega, (hmem a (by simp [ha])).2.2⟩
          have hub := ih i j qs (by omega) hqs
          rw [compute_lcs_table_succ_succ, if_pos hm]
          simp only [List.length_append, List.length_singleton]
          omega
        · rw [compute_lcs_table_succ_succ, if_neg hm]
          by_cases hpj : p.2 < j
          · have hps : isAlignment mb (i + 1) j (qs ++ [p]) := by
              refine ⟨hpw, ?_⟩
              intro a ha
              rcases List.mem_append.mp ha with ha' | ha'
              · obtain ⟨h1, _, h3⟩ := hmem a ha
                have har2 := (hrel a ha' p (by simp)).2
                exact ⟨h1, by omega, h3⟩
              · rw [List.mem_singleton] at ha'
                subst ha'
                exact ⟨hp1, hpj, hpm⟩
            exact le_trans (ih (i + 1) j _ (by omega) hps) (le_max_left _ _)
          · by_cases hpi : p.1 < i
            · have hps : isAlignment mb i (j + 1) (qs ++ [p]) := by
                refine ⟨hpw, ?_⟩
                intro a ha
                rcases List.mem_append.mp ha with ha' | ha'
                · obtain ⟨_, h2, h3⟩ := hmem a ha
                  have har1 := (hrel a ha' p (by simp)).1
                  exact ⟨by omega, h2, h3⟩
                · rw [List.mem_singleton] at ha'
                  subst ha'
                  exact ⟨hpi, hp2, hpm⟩
              exact le_trans (ih i (j + 1) _ (by omega) hps) (le_max_right _ _)
            · have hpi' : p.1 = i := by omega
              have hpj' : p.2 = j := by omega
              rw [hpi', hpj'] at hpm
              exact absurd hpm hm

/-- The table is monotone along each row. -/
theorem lcs_mono_right (mb : Nat → Nat → Bool) (i j : Nat) :
    compute_lcs_table mb i j ≤ compute_lcs_table mb i (j + 1) := by
  obtain ⟨ps, ⟨hpw, hmem⟩, hlen⟩ := lcs_achieve mb (i + j) i j le_rfl
  rw [← hlen]
  refine lcs_ub mb (i + (j + 1)) i (j + 1) ps le_rfl ⟨hpw, ?_⟩
  intro p hp
  obtain ⟨h1, h2, h3⟩ := hmem p hp
  exact ⟨h1, by omega, h3⟩

/-- The table is monotone along each column. -/
theorem lcs_mono_left (mb : Nat → Nat → Bool) (i j : Nat) :
    compute_lcs_table mb i j ≤ compute_lcs_table mb (i + 1) j := by
  obtain ⟨ps, ⟨hpw, hmem⟩, hlen⟩ := lcs_achieve mb (i + j) i j le_rfl
  rw [← hlen]
  refine lcs_ub mb (i + 1 + j) (i + 1) j ps le_rfl ⟨hpw, ?_⟩
  intro p hp
  obtain ⟨h1, h2, h3⟩ := hmem p hp
  exact ⟨by omega, h2, h3⟩

/-! ## The backtrace realizes the table value -/

/-- Shape analysis of one backtrace iteration over the table actually built
by `compute_lcs_table`: along each move the table value at the cursor is
preserved (line/suppression moves) or decreases by exactly one match. -/
theorem codeStep_lcs_cases (mb : Nat → Nat → Bool) (i j : Nat)
    (h : ¬(i = 0 ∧ j = 0)) :
    (0 < j ∧ codeStep mb (compute_lcs_table mb) i j = (.UnmatchedLine (j - 1), i, j - 1) ∧
      compute_lcs_table mb i j = compute_lcs_table mb i (j - 1)) ∨
    (0 < i ∧ codeStep mb (compute_lcs_table mb) i j =
        (.UnmatchedSuppression (i - 1), i - 1, j) ∧
      compute_lcs_table mb i j = compute_lcs_table mb (i - 1) j) ∨
    (0 < i ∧ 0 < j ∧ mb (i - 1) (j - 1) = true ∧
      codeStep mb (compute_lcs_table mb) i j = (.Match (i - 1) (j - 1), i - 1, j - 1) ∧
      compute_lcs_table mb i j = compute_lcs_table mb (i - 1) (j - 1) + 1) := by
  by_cases hi : i = 0
  · subst hi
    refine Or.inl ⟨by omega, by simp [codeStep], ?_⟩
    rw [compute_lcs_table_zero_left, compute_lcs_table_zero_left]
  · by_cases hj : j = 0
    · subst hj
      refine Or.inr (Or.inl ⟨by omega, by simp [codeStep, hi], ?_⟩)
      rw [compute_lcs_table_zero_right, compute_lcs_table_zero_right]
    · obtain ⟨i', rfl⟩ : ∃ i', i = i' + 1 := ⟨i - 1, by omega⟩
      obtain ⟨j', rfl⟩ : ∃ j', j = j' + 1 := ⟨j - 1, by omega⟩
      simp only [codeStep, if_neg hi, if_neg hj, Nat.add_sub_cancel]
      by_cases hm : mb i' j' = true
      · simp only [if_pos hm]
        by_cases h1 : compute_lcs_table mb (i' + 1) j' = compute_lcs_table mb (i' + 1) (j' + 1)
        · exact Or.inl ⟨by omega, by simp [h1], h1.symm⟩
        · by_cases h2 : compute_lcs_table mb i' (j' + 1) = compute_lcs_table mb (i' + 1) (j' + 1)
          · exact Or.inr (Or.inl ⟨by omega, by simp [h1, h2], h2.symm⟩)
          · refine Or.inr (Or.inr ⟨by omega, by omega, hm, by simp [h1, h2], ?_⟩)
            rw [compute_lcs_table_succ_succ, if_pos hm]
      · simp only [if_neg hm]
        have hcell : compute_lcs_table mb (i' + 1) (j' + 1) =
            max (compute_lcs_table mb (i' + 1) j') (compute_lcs_table mb i' (j' + 1)) := by
          rw [compute_lcs_table_succ_succ, if_neg hm]
        by_cases h3 : compute_lcs_table mb (i' + 1) j' > compute_lcs_table mb i' (j' + 1)
        · refine Or.inl ⟨by omega, by simp [h3], ?_⟩
          rw [hcell]
          omega
        · by_cases h4 : compute_lcs_table mb (i' + 1) j' = compute_lcs_table mb i' (j' + 1)
          · refine Or.inl ⟨by omega, by simp [h3, h4], ?_⟩
            rw [hcell]
            omega
          · refine Or.inr (Or.inl ⟨by omega, by simp [h3, h4], ?_⟩)
            rw [hcell]
            omega

/-- Invariant of the backtrace over the real table: from cursor `(i, j)` it
emits exactly `table[i][j]` matches, their pairs are strictly decreasing in
emission order, in range, and related by the match predicate. -/
theorem showDiffsAux_matchPairs (mb : Nat → Nat → Bool) :
    ∀ fuel i j, i + j ≤ fuel →
      (matchPairs (showDiffsAux mb (compute_lcs_table mb) fuel i j)).length =
          compute_lcs_table mb i j ∧
      (matchPairs (showDiffsAux mb (compute_lcs_table mb) fuel i j)).Pairwise
          (fun p q => incPair q p) ∧
      ∀ p ∈ matchPairs (showDiffsAux mb (compute_lcs_table mb) fuel i j),
        p.1 < i ∧ p.2 < j ∧ mb p.1 p.2 = true := by
  intro fuel
  induction fuel with
  | zero =>
    intro i j h
    have hi : i = 0 := by omega
    have hj : j = 0 := by omega
    subst hi; subst hj
    simp [showDiffsAux, matchPairs, compute_lcs_table_zero_left]
  | succ fuel ih =>
    intro i j h
    by_cases h0 : i = 0 ∧ j = 0
    · rcases h0 with ⟨rfl, rfl⟩
      simp [showDiffsAux, matchPairs, compute_lcs_table_zero_left]
    · rw [showDiffsAux_succ mb (compute_lcs_table mb) fuel i j h0]
      rcases codeStep_lcs_cases mb i j h0 with ⟨hj, hs, ht⟩ | ⟨hi, hs, ht⟩ |
        ⟨hi, hj, hm, hs, ht⟩
      · rw [hs]
        obtain ⟨ih1, ih2, ih3⟩ := ih i (j - 1) (by omega)
        refine ⟨?_, ?_, ?_⟩
        · simpa [matchPairs, ht] using ih1
        · simpa [matchPairs] using ih2
        · intro p hp
          rw [matchPairs, List.filterMap_cons] at hp
          obtain ⟨h1, h2, h3⟩ := ih3 p (by simpa [matchPairs] using hp)
          exact ⟨h1, by omega, h3⟩
      · rw [hs]
        obtain ⟨ih1, ih2, ih3⟩ := ih (i - 1) j (by omega)
        refine ⟨?_, ?_, ?_⟩
        · simpa [matchPairs, ht] using ih1
        · simpa [matchPairs] using ih2
        · intro p hp
          rw [matchPairs, List.filterMap_cons] at hp
          obtain ⟨h1, h2, h3⟩ := ih3 p (by simpa [matchPairs] using hp)
          exact ⟨by omega, h2, h3⟩
      · rw [hs]
        obtain ⟨ih1, ih2, ih3⟩ := ih (i - 1) (j - 1) (by omega)
        refine ⟨?_, ?_, ?_⟩
        · simp only [matchPairs, List.filterMap_cons] at ih1 ⊢
          simp only [List.length_cons, ih1, ht]
        · simp only [matchPairs, List.filterMap_cons] at ih2 ⊢
          refine List.Pairwise.cons ?_ ih2
          intro q hq
          obtain ⟨h1, h2, _⟩ := ih3 q (by simpa [matchPairs] using hq)
          exact ⟨h1, h2⟩
        · intro p hp
          simp only [matchPairs, List.filterMap_cons] at hp
          rcases List.mem_cons.mp hp with rfl | hp'
          · exact ⟨by omega, by omega, hm⟩
          · obtain ⟨h1, h2, h3⟩ := ih3 p (by simpa [matchPairs] using hp')
            exact ⟨by omega, by omega, h3⟩

/-- `countMatches` counts exactly the elements of `matchPairs`. -/
theorem countMatches_eq_matchPairs_length (es : List DiffEvent) :
    countMatches es = (matchPairs es).length := by
  induction es with
  | nil => rfl
  | cons e es ih =>
    cases e <;>
      simp [countMatches, matchPairs, isMatchEvent, List.countP_cons,
        List.filterMap_cons] <;>
      simp [countMatches, matchPairs] at ih <;> omega

/-! ## Fuel irrelevance of the backtrace loop -/

/-- Each backtrace iteration strictly decreases `i + j`. -/
theorem codeStep_decrease (mb : Nat → Nat → Bool) (t : Nat → Nat → Nat) (i j : Nat)
    (h : ¬(i = 0 ∧ j = 0)) :
    (codeStep mb t i j).2.1 + (codeStep mb t i j).2.2 < i + j := by
  rcases codeStep_cases mb t i j h with ⟨hj, hs⟩ | ⟨hi, hs⟩ | ⟨hi, hj, _, hs⟩ <;>
    rw [hs] <;> simp <;> omega

/-- Any fuel at least `i + j` produces the same event sequence. -/
theorem showDiffsAux_fuel (mb : Nat → Nat → Bool) (t : Nat → Nat → Nat) :
    ∀ fuel fuel' i j, i + j ≤ fuel → i + j ≤ fuel' →
      showDiffsAux mb t fuel i j = showDiffsAux mb t fuel' i j := by
  intro fuel
  induction fuel with
  | zero =>
    intro fuel' i j h h'
    have hi : i = 0 := by omega
    have hj : j = 0 := by omega
    subst hi; subst hj
    cases fuel' <;> simp [showDiffsAux]
  | succ fuel ih =>
    intro fuel' i j h h'
    by_cases h0 : i = 0 ∧ j = 0
    · rcases h0 with ⟨rfl, rfl⟩
      cases fuel' <;> simp [showDiffsAux]
    · cases fuel' with
      | zero => omega
      | succ f' =>
        rw [showDiffsAux_succ _ _ _ _ _ h0, showDiffsAux_succ _ _ _ _ _ h0]
        have hd := codeStep_decrease mb t i j h0
        rw [ih f' _ _ (by omega) (by omega)]

/-! ## The fast path mirrors the full backtrace -/

/-- Consuming a matching head pair raises every interior cell by one:
the table over the full sequences and the table over the residual
sequences differ by exactly the head match. -/
theorem lcs_shift (mb : Nat → Nat → Bool) (h00 : mb 0 0 = true) (i j : Nat) :
    compute_lcs_table mb (i + 1) (j + 1) =
      compute_lcs_table (mbShift 1 mb) i j + 1 := by
  apply le_antisymm
  · obtain ⟨ps, hal, hlen⟩ := lcs_achieve mb (i + 1 + (j + 1)) (i + 1) (j + 1) le_rfl
    rw [← hlen]
    cases ps with
    | nil => simp
    | cons p rest =>
      obtain ⟨hpw, hmem⟩ := hal
      rw [List.pairwise_cons] at hpw
      obtain ⟨hrel, hrest_pw⟩ := hpw
      have hq : ∀ q ∈ rest, 1 ≤ q.1 ∧ 1 ≤ q.2 := by
        intro q hqm
        have h1 := (hrel q hqm).1
        have h2 := (hrel q hqm).2
        omega
      have halq : isAlignment (mbShift 1 mb) i j (rest.map fun q => (q.1 - 1, q.2 - 1)) := by
        constructor
        · rw [List.pairwise_map]
          refine hrest_pw.imp_of_mem ?_
          intro a b ha hb hab
          have h1 := hab.1
          have h2 := hab.2
          have ha1 := (hq a ha).1
          have ha2 := (hq a ha).2
          exact ⟨by omega, by omega⟩
        · intro p' hp'
          rcases List.mem_map.mp hp' with ⟨q, hqm, rfl⟩
          obtain ⟨hb1, hb2, hb3⟩ := hmem q (List.mem_cons_of_mem _ hqm)
          have hq1 := (hq q hqm).1
          have hq2 := (hq q hqm).2
          refine ⟨by omega, by omega, ?_⟩
          have e1 : q.1 - 1 + 1 = q.1 := by omega
          have e2 : q.2 - 1 + 1 = q.2 := by omega
          simp only [mbShift, e1, e2]
          exact hb3
      have hub := lcs_ub (mbShift 1 mb) (i + j) i j _ le_rfl halq
      simp only [List.length_map] at hub
      simp only [List.length_cons]
      omega
  · obtain ⟨qs, ⟨hpw, hmem⟩, hlen⟩ := lcs_achieve (mbShift 1 mb) (i + j) i j le_rfl
    have halps : isAlignment mb (i + 1) (j + 1)
        ((0, 0) :: qs.map fun q => (q.1 + 1, q.2 + 1)) := by
      constructor
      · rw [List.pairwise_cons]
        constructor
        · intro b hb
          rcases List.mem_map.mp hb with ⟨q, _, rfl⟩
          exact ⟨Nat.succ_pos _, Nat.succ_pos _⟩
        · rw [List.pairwise_map]
          exact hpw.imp fun hab => ⟨Nat.succ_lt_succ hab.1, Nat.succ_lt_succ hab.2⟩
      · intro p hp
        rcases List.mem_cons.mp hp with rfl | hp'
        · exact ⟨Nat.succ_pos _, Nat.succ_pos _, h00⟩
        · rcases List.mem_map.mp hp' with ⟨q, hqm, rfl⟩
          obtain ⟨h1, h2, h3⟩ := hmem q hqm
          exact ⟨by omega, by omega, h3⟩
    have hub := lcs_ub mb (i + 1 + (j + 1)) (i + 1) (j + 1) _ le_rfl halps
    simp only [List.length_cons, List.length_map] at hub
    omega

/-- At cursor `(1, 1)` with a matching head pair, the backtrace takes the
match. -/
theorem codeStep_one_one (mb : Nat → Nat → Bool) (h00 : mb 0 0 = true) :
    codeStep mb (compute_lcs_table mb) 1 1 = (.Match 0 0, 0, 0) := by
  have h1 : compute_lcs_table mb 1 1 = compute_lcs_table (mbShift 1 mb) 0 0 + 1 :=
    lcs_shift mb h00 0 0
  rw [compute_lcs_table_zero_left] at h1
  have h2 : compute_lcs_table mb 1 0 = 0 := compute_lcs_table_zero_right mb 1
  have h3 : compute_lcs_table mb 0 1 = 0 := compute_lcs_table_zero_left mb 1
  simp [codeStep, h00, h1, h2, h3]

/-- With a matching head pair, every backtrace iteration at a cursor other
than `(1, 1)` is the residual iteration at `(i, j)`, renamed up by one. -/
theorem codeStep_shift (mb : Nat → Nat → Bool) (h00 : mb 0 0 = true) (i j : Nat)
    (h : ¬(i = 0 ∧ j = 0)) :
    codeStep mb (compute_lcs_table mb) (i + 1) (j + 1) =
      (shiftEvent 1 (codeStep (mbShift 1 mb) (compute_lcs_table (mbShift 1 mb)) i j).1,
       (codeStep (mbShift 1 mb) (compute_lcs_table (mbShift 1 mb)) i j).2.1 + 1,
       (codeStep (mbShift 1 mb) (compute_lcs_table (mbShift 1 mb)) i j).2.2 + 1) := by
  by_cases hi : i = 0
  · subst hi
    obtain ⟨j', rfl⟩ : ∃ j', j = j' + 1 := ⟨j - 1, by omega⟩
    have hA := lcs_shift mb h00 0 j'
    have hB := lcs_shift mb h00 0 (j' + 1)
    simp only [compute_lcs_table_zero_left, Nat.zero_add] at hA hB
    simp only [codeStep, shiftEvent, Nat.zero_add, Nat.add_sub_cancel, Nat.sub_self,
      compute_lcs_table_zero_left]
    split_ifs <;> first | rfl | omega
  · by_cases hj : j = 0
    · subst hj
      obtain ⟨i', rfl⟩ : ∃ i', i = i' + 1 := ⟨i - 1, by omega⟩
      have hA := lcs_shift mb h00 i' 0
      have hB := lcs_shift mb h00 (i' + 1) 0
      simp only [compute_lcs_table_zero_right, Nat.zero_add] at hA hB
      simp only [codeStep, shiftEvent, Nat.zero_add, Nat.add_sub_cancel, Nat.sub_self,
        compute_lcs_table_zero_right]
      split_ifs <;> first | rfl | omega | contradiction
    · obtain ⟨i', rfl⟩ : ∃ i', i = i' + 1 := ⟨i - 1, by omega⟩
      obtain ⟨j', rfl⟩ : ∃ j', j = j' + 1 := ⟨j - 1, by omega⟩
      have hA := lcs_shift mb h00 (i' + 1) j'
      have hB := lcs_shift mb h00 i' (j' + 1)
      have hC := lcs_shift mb h00 (i' + 1) (j' + 1)
      have hmm' : mbShift 1 mb i' j' = mb (i' + 1) (j' + 1) := rfl
      simp only [codeStep, shiftEvent, Nat.add_sub_cancel]
      rw [hmm']
      split_ifs <;> first | rfl | omega

theorem shiftEvent_zero (e : DiffEvent) : shiftEvent 0 e = e := by
  cases e <;> rfl

theorem shiftEvent_shiftEvent (n : Nat) (e : DiffEvent) :
    shiftEvent 1 (shiftEvent n e) = shiftEvent (n + 1) e := by
  cases e <;> rfl

/-- With a matching head pair, the full backtrace from `(i+1, j+1)` is the
residual backtrace from `(i, j)` renamed up by one, followed (in emission
order) by the head match. -/
theorem showDiffsAux_shift (mb : Nat → Nat → Bool) (h00 : mb 0 0 = true) :
    ∀ fuel i j, i + j ≤ fuel →
      showDiffsAux mb (compute_lcs_table mb) (fuel + 1) (i + 1) (j + 1) =
        (showDiffsAux (mbShift 1 mb) (compute_lcs_table (mbShift 1 mb)) fuel i j).map
          (shiftEvent 1) ++ [.Match 0 0] := by
  intro fuel
  induction fuel with
  | zero =>
    intro i j h
    have hi : i = 0 := by omega
    have hj : j = 0 := by omega
    subst hi; subst hj
    rw [showDiffsAux_succ _ _ _ _ _ (by omega), codeStep_one_one mb h00]
    simp [showDiffsAux]
  | succ fuel ih =>
    intro i j h
    by_cases h0 : i = 0 ∧ j = 0
    · rcases h0 with ⟨rfl, rfl⟩
      rw [showDiffsAux_succ _ _ _ _ _ (by omega), codeStep_one_one mb h00]
      simp [showDiffsAux]
    · rcases hstep : codeStep (mbShift 1 mb) (compute_lcs_table (mbShift 1 mb)) i j with
        ⟨e, i2, j2⟩
      have hcs := codeStep_shift mb h00 i j h0
      rw [hstep] at hcs
      have hd := codeStep_decrease (mbShift 1 mb) (compute_lcs_table (mbShift 1 mb)) i j h0
      rw [hstep] at hd
      dsimp only at hcs hd
      rw [showDiffsAux_succ mb _ (fuel + 1) (i + 1) (j + 1) (by omega), hcs]
      dsimp only
      rw [ih i2 j2 (by omega)]
      rw [showDiffsAux_succ (mbShift 1 mb) _ fuel i j h0, hstep]
      dsimp only
      simp

/-- With a matching head pair, the output-order events over the full
sequences are the head match followed by the residual events renamed up by
one. -/
theorem show_diffs_shift (mb : Nat → Nat → Bool) (h00 : mb 0 0 = true) (S L : Nat) :
    show_diffs_from_lcs_table mb (compute_lcs_table mb) (S + 1) (L + 1) =
      .Match 0 0 :: (show_diffs_from_lcs_table (mbShift 1 mb)
          (compute_lcs_table (mbShift 1 mb)) S L).map (shiftEvent 1) := by
  unfold show_diffs_from_lcs_table
  have hf : S + 1 + (L + 1) = (S + L + 1) + 1 := by omega
  rw [hf, showDiffsAux_shift mb h00 (S + L + 1) S L (by omega),
    showDiffsAux_fuel (mbShift 1 mb) (compute_lcs_table (mbShift 1 mb))
      (S + L + 1) (S + L) S L (by omega) (by omega)]
  simp

/-- Advancing the scan start by one is scanning the residual relation. -/
theorem cimsAux_shift (mb : Nat → Nat → Bool) :
    ∀ fuel idx, cimsAux mb (idx + 1) fuel = cimsAux (mbShift 1 mb) idx fuel + 1 := by
  intro fuel
  induction fuel with
  | zero => intro idx; rfl
  | succ fuel ih =>
    intro idx
    have hmm : mbShift 1 mb idx idx = mb (idx + 1) (idx + 1) := rfl
    by_cases hmb : mb (idx + 1) (idx + 1) = true
    · simp only [cimsAux, hmm, hmb, if_true]
      exact ih (idx + 1)
    · simp only [cimsAux, hmm, hmb]
      simp [hmb]

/-- Inversion of a positive fast-path result: the head pair matches, both
sequences are nonempty, and the residual scan result is one less. -/
theorem cims_succ (mb : Nat → Nat → Bool) (S L n : Nat)
    (h : compute_initial_matching_sequence mb S L = n + 1) :
    mb 0 0 = true ∧ 1 ≤ S ∧ 1 ≤ L ∧
      compute_initial_matching_sequence (mbShift 1 mb) (S - 1) (L - 1) = n := by
  unfold compute_initial_matching_sequence at h ⊢
  rcases Nat.eq_zero_or_pos (min S L) with h0 | hpos
  · rw [h0] at h
    exact absurd h (by simp [cimsAux])
  · obtain ⟨m, hm⟩ : ∃ m, min S L = m + 1 := ⟨min S L - 1, by omega⟩
    rw [hm] at h
    by_cases h00 : mb 0 0 = true
    · simp only [cimsAux, h00, if_true] at h
      rw [cimsAux_shift mb m 0] at h
      have hS : 1 ≤ S := by omega
      have hL : 1 ≤ L := by omega
      have hmin : min (S - 1) (L - 1) = m := by omega
      rw [hmin]
      exact ⟨h00, hS, hL, by omega⟩
    · simp [cimsAux, h00] at h

/-- The fast-path pipeline equals the full backtrace: induction over the
consumed prefix length, peeling one matched head pair per step. -/
theorem engine_shift :
    ∀ n (mb : Nat → Nat → Bool) (S L : Nat),
      compute_initial_matching_sequence mb S L = n →
      ((List.range n).map fun k => DiffEvent.Match k k) ++
        (show_diffs_from_lcs_table (mbShift n mb) (compute_lcs_table (mbShift n mb))
          (S - n) (L - n)).map (shiftEvent n) =
      show_diffs_from_lcs_table mb (compute_lcs_table mb) S L := by
  intro n
  induction n with
  | zero =>
    intro mb S L _
    have hsh : shiftEvent 0 = id := funext shiftEvent_zero
    have hmb : mbShift 0 mb = mb := rfl
    rw [hsh, hmb, List.map_id]
    simp
  | succ n ih =>
    intro mb S L h
    obtain ⟨h00, hS, hL, hres⟩ := cims_succ mb S L n h
    obtain ⟨S', rfl⟩ : ∃ S', S = S' + 1 := ⟨S - 1, by omega⟩
    obtain ⟨L', rfl⟩ : ∃ L', L = L' + 1 := ⟨L - 1, by omega⟩
    rw [show_diffs_shift mb h00 S' L']
    have hres' : compute_initial_matching_sequence (mbShift 1 mb) S' L' = n := by
      simpa using hres
    rw [← ih (mbShift 1 mb) S' L' hres']
    have hmb : mbShift n (mbShift 1 mb) = mbShift (n + 1) mb := rfl
    have hS'' : S' + 1 - (n + 1) = S' - n := by omega
    have hL'' : L' + 1 - (n + 1) = L' - n := by omega
    rw [List.range_succ_eq_map, hS'', hL'', hmb]
    simp only [List.map_cons, List.map_append, List.map_map, List.cons_append]
    have h1 : (List.range n).map ((fun k => DiffEvent.Match k k) ∘ Nat.succ) =
        (List.range n).map (shiftEvent 1 ∘ fun k => DiffEvent.Match k k) :=
      List.map_congr_left fun _ _ => rfl
    have h2 : ∀ es : List DiffEvent,
        es.map (shiftEvent (n + 1)) = es.map (shiftEvent 1 ∘ shiftEvent n) := fun es =>
      List.map_congr_left fun e _ => (shiftEvent_shiftEvent n e).symm
    rw [h1, h2]

/-! ## Counts are derived from the classification -/

/-- `countP` is invariant under list reversal. -/
theorem countP_rev {α : Type} (p : α → Bool) (l : List α) :
    l.reverse.countP p = l.countP p := by
  induction l with
  | nil => rfl
  | cons a l ih => simp [List.reverse_cons, List.countP_append, List.countP_cons, ih]

/-- Renaming indices does not change the event tags, hence not the counts. -/
theorem diffCounts_map_shiftEvent (d : Nat) (es : List DiffEvent) :
    diffCounts (es.map (shiftEvent d)) = diffCounts es := by
  unfold diffCounts
  rw [List.countP_map, List.countP_map]
  have h1 : isUnmatchedSuppressionEvent ∘ shiftEvent d = isUnmatchedSuppressionEvent := by
    funext e; cases e <;> rfl
  have h2 : isUnmatchedLineEvent ∘ shiftEvent d = isUnmatchedLineEvent := by
    funext e; cases e <;> rfl
  rw [h1, h2]

/-- The fast-path prefix consists of `Match` events only, so it contributes
nothing to either unmatched counter. -/
theorem diffCounts_initial_matches (n : Nat) :
    diffCounts ((List.range n).map fun k => DiffEvent.Match k k) = (0, 0) := by
  unfold diffCounts
  rw [List.countP_map, List.countP_map]
  have h1 : (isUnmatchedSuppressionEvent ∘ fun k => DiffEvent.Match k k) =
      fun _ => false := by
    funext k; rfl
  have h2 : (isUnmatchedLineEvent ∘ fun k => DiffEvent.Match k k) = fun _ => false := by
    funext k; rfl
  rw [h1, h2]
  simp

/-! ## Record-level model: rendering helpers and module-level globals -/

/-- The `Line` dataclass (lines 40-43). -/
structure Line where
  linenr : Nat
  content : String

/-- The `Regexp` dataclass (lines 50-54); the compiled pattern is kept
opaque as the predicate `text ↦ regexp.fullmatch(text)`. -/
structure Regexp where
  linenr : Nat
  content : String
  regexp : String → Bool

/-- Placeholder for an out-of-range list access (the backtrace only reads
in-range elements). -/
def defaultRegexp : Regexp := ⟨0, "", fun _ => false⟩

/-- Placeholder for an out-of-range list access. -/
def defaultLine : Line := ⟨0, ""⟩

/-- The match relation induced by concrete suppression and line lists:
`regexps[i].regexp.fullmatch(lines[j].content)`. -/
def mbOf (regexps : List Regexp) (lines : List Line) : Nat → Nat → Bool :=
  fun i j => (regexps.getD i defaultRegexp).regexp ((lines.getD j defaultLine).content)

/-- `get_log_string` (lines 19-26), with the module-level global `verbosity`
threaded as the first parameter; `none` models the Python `False`. -/
def get_log_string (verbosity level : Nat) (message : String) : Option String :=
  if 5 ≤ verbosity then some ("LOG(" ++ toString level ++ "): " ++ message)
  else if level ≤ verbosity then some message
  else none

/-- `log_append` (lines 32-34): appends when `get_log_string` is truthy
(a non-`False`, non-empty string). -/
def log_append (verbosity : Nat) (logs : List String) (level : Nat)
    (message : String) : List String :=
  match get_log_string verbosity level message with
  | some s => if s.length = 0 then logs else logs ++ [s]
  | none => logs

/-- Right-alignment of a number to a field width, as in the Python format
spec `{linenr:{width}}`. -/
def padLeftNat (width n : Nat) : String :=
  (List.replicate (width - (toString n).length) ' ').asString ++ toString n

/-- `get_line_outstring` (lines 80-81), with the module-level global
`max_linenr_width` threaded as the `width` parameter. -/
def get_line_outstring (width linenr : Nat) (content : String) : String :=
  padLeftNat width linenr ++ ": " ++ content

/-- One iteration of the backtrace loop with its log output: the
discrimination chain of lines 143-171 building `tmp_output`, followed by
the result handling of lines 174-189.  Returns the iteration's log lines
(in append order), the classification, and the next cursor. -/
def classify_full (verbosity width : Nat) (t : Nat → Nat → Nat)
    (regexps : List Regexp) (lines : List Line) (i j : Nat) :
    List String × DiffEvent × Nat × Nat :=
  let discr : List String × DiffEvent :=
    if i = 0 then
      (log_append verbosity [] 4 "Unmatched input line at head of input lines",
        .UnmatchedLine (j - 1))
    else if j = 0 then
      (log_append verbosity [] 4 "Unmatched suppression at head of suppressions",
        .UnmatchedSuppression (i - 1))
    else if (regexps.getD (i - 1) defaultRegexp).regexp
        ((lines.getD (j - 1) defaultLine).content) then
      if t i (j - 1) = t i j then
        (log_append verbosity [] 4 "Deliberately preferring unmatched line",
          .UnmatchedLine (j - 1))
      else if t (i - 1) j = t i j then
        (log_append verbosity [] 4 "Deliberately preferring unmatched suppression",
          .UnmatchedSuppression (i - 1))
      else ([], .Match (i - 1) (j - 1))
    else if t i (j - 1) > t (i - 1) j then
      (log_append verbosity [] 4 "Unmatched input line necessary to achieve lcs",
        .UnmatchedLine (j - 1))
    else if t i (j - 1) = t (i - 1) j then
      (log_append verbosity [] 4 "Show unmatched suppressions before unmatched lines",
        .UnmatchedLine (j - 1))
    else
      (log_append verbosity [] 4 "Unmatched suppression necessary to achieve lcs",
        .UnmatchedSuppression (i - 1))
  match discr with
  | (tmp, .UnmatchedSuppression s) =>
    let tmp1 := log_append verbosity tmp 2 "Unmatched suppression:"
    let tmp2 := log_append verbosity tmp1 0
      ("- " ++ get_line_outstring width (regexps.getD s defaultRegexp).linenr
        (regexps.getD s defaultRegexp).content)
    (tmp2, .UnmatchedSuppression s, i - 1, j)
  | (tmp, .UnmatchedLine l) =>
    let tmp1 := log_append verbosity tmp 2 "Unmatched input line:"
    let tmp2 := log_append verbosity tmp1 0
      ("+ " ++ get_line_outstring width (lines.getD l defaultLine).linenr
        (lines.getD l defaultLine).content)
    (tmp2, .UnmatchedLine l, i, j - 1)
  | (tmp, .Match s l) =>
    let tmp1 := log_append verbosity tmp 2 "Match:"
    let tmp2 := log_append verbosity tmp1 1
      ("~ " ++ get_line_outstring width (regexps.getD s defaultRegexp).linenr
        (regexps.getD s defaultRegexp).content)
    let tmp3 := log_append verbosity tmp2 1
      ("= " ++ get_line_outstring width (lines.getD l defaultLine).linenr
        (lines.getD l defaultLine).content)
    (tmp3, .Match s l, i - 1, j - 1)

/-- The backtrace loop of lines 130-192 with its output: returns the final
printed log lines in output order (the `reversed(reversed_output)` of line
194) and the two counters. -/
def show_diffs_full_aux (verbosity width : Nat) (t : Nat → Nat → Nat)
    (regexps : List Regexp) (lines : List Line) :
    Nat → Nat → Nat → List String × Nat × Nat
  | 0, _, _ => ([], 0, 0)
  | fuel + 1, i, j =>
    if i = 0 ∧ j = 0 then ([], 0, 0)
    else
      let c := classify_full verbosity width t regexps lines i j
      let rest := show_diffs_full_aux verbosity width t regexps lines fuel c.2.2.1 c.2.2.2
      (rest.1 ++ c.1,
        match c.2.1 with
        | .UnmatchedSuppression _ => (rest.2.1 + 1, rest.2.2)
        | .UnmatchedLine _ => (rest.2.1, rest.2.2 + 1)
        | .Match _ _ => rest.2)

/-- `show_diffs_from_lcs_table` (lines 124-196) in full: printed output plus
the returned pair `(unmatched_regexps, unmatched_lines)`. -/
def show_diffs_from_lcs_table_full (verbosity width : Nat) (t : Nat → Nat → Nat)
    (regexps : List Regexp) (lines : List Line) : List String × Nat × Nat :=
  show_diffs_full_aux verbosity width t regexps lines
    (regexps.length + lines.length) regexps.length lines.length

/-- The classification and cursor movement of an iteration are exactly
`codeStep` over the induced match relation, whatever the values of the
`verbosity` and `max_linenr_width` globals. -/
theorem classify_full_codeStep (v w : Nat) (t : Nat → Nat → Nat)
    (rs : List Regexp) (ls : List Line) (i j : Nat) :
    (classify_full v w t rs ls i j).2 = codeStep (mbOf rs ls) t i j := by
  unfold classify_full codeStep mbOf
  dsimp only
  split_ifs <;> rfl

/-- The counters of the full loop equal the tag tallies of the pure event
classification, for any `verbosity` and width. -/
theorem show_diffs_full_aux_counts (v w : Nat) (t : Nat → Nat → Nat)
    (rs : List Regexp) (ls : List Line) :
    ∀ fuel i j,
      (show_diffs_full_aux v w t rs ls fuel i j).2 =
        ((showDiffsAux (mbOf rs ls) t fuel i j).countP isUnmatchedSuppressionEvent,
         (showDiffsAux (mbOf rs ls) t fuel i j).countP isUnmatchedLineEvent) := by
  intro fuel
  induction fuel with
  | zero => intro i j; rfl
  | succ fuel ih =>
    intro i j
    by_cases h0 : i = 0 ∧ j = 0
    · simp [show_diffs_full_aux, showDiffsAux, h0]
    · rw [showDiffsAux_succ _ _ _ _ _ h0]
      rcases hcs : codeStep (mbOf rs ls) t i j with ⟨e, i2, j2⟩
      have hc := classify_full_codeStep v w t rs ls i j
      rw [hcs] at hc
      have h1 : (classify_full v w t rs ls i j).2.1 = e := by rw [hc]
      have h2 : (classify_full v w t rs ls i j).2.2.1 = i2 := by rw [hc]
      have h3 : (classify_full v w t rs ls i j).2.2.2 = j2 := by rw [hc]
      simp only [show_diffs_full_aux, if_neg h0, h1, h2, h3]
      cases e <;>
        simp [List.countP_cons, isUnmatchedSuppressionEvent, isUnmatchedLineEvent,
          ih i2 j2]

/-- The returned counters of the full function equal the tag tallies of the
output-order pure classification. -/
theorem show_diffs_full_counts (v w : Nat) (t : Nat → Nat → Nat)
    (rs : List Regexp) (ls : List Line) :
    (show_diffs_from_lcs_table_full v w t rs ls).2 =
      diffCounts (show_diffs_from_lcs_table (mbOf rs ls) t rs.length ls.length) := by
  unfold show_diffs_from_lcs_table_full show_diffs_from_lcs_table diffCounts
  rw [show_diffs_full_aux_counts, countP_rev, countP_rev]

/-- Both counters are additive over concatenation. -/
theorem diffCounts_append (l1 l2 : List DiffEvent) :
    diffCounts (l1 ++ l2) =
      ((diffCounts l1).1 + (diffCounts l2).1, (diffCounts l1).2 + (diffCounts l2).2) := by
  unfold diffCounts
  rw [List.countP_append, List.countP_append]

/-- Modelled from the spec, §4.3: the six classification rules, evaluated
in their fixed precedence order at a non-terminal cursor `(i, j)`:
rule 1 (`i == 0` → `UnmatchedLine (j-1)`, move `(i, j-1)`); rule 2
(`j == 0` → `UnmatchedSuppression (i-1)`, move `(i-1, j)`); rule 3 (a
candidate match exists: prefer `UnmatchedLine (j-1)` when
`table[i][j-1] == table[i][j]`, else `UnmatchedSuppression (i-1)` when
`table[i-1][j] == table[i][j]`, else take `Match (i-1, j-1)`); rule 4
(`table[i][j-1] > table[i-1][j]` → `UnmatchedLine (j-1)`); rule 5
(`table[i][j-1] == table[i-1][j]` → `UnmatchedLine (j-1)`); rule 6
(otherwise → `UnmatchedSuppression (i-1)`). -/
def specRuleStep (mb : Nat → Nat → Bool) (t : Nat → Nat → Nat) (i j : Nat) :
    DiffEvent × Nat × Nat :=
  if i = 0 then (.UnmatchedLine (j - 1), i, j - 1)
  else if j = 0 then (.UnmatchedSuppression (i - 1), i - 1, j)
  else if mb (i - 1) (j - 1) then
    if t i (j - 1) = t i j then (.UnmatchedLine (j - 1), i, j - 1)
    else if t (i - 1) j = t i j then (.UnmatchedSuppression (i - 1), i - 1, j)
    else (.Match (i - 1) (j - 1), i - 1, j - 1)
  else if t i (j - 1) > t (i - 1) j then (.UnmatchedLine (j - 1), i, j - 1)
  else if t i (j - 1) = t (i - 1) j then (.UnmatchedLine (j - 1), i, j - 1)
  else (.UnmatchedSuppression (i - 1), i - 1, j)

/-- The match relation of the spec §8 tie-break scenario: the single
suppression `"^X$"` fullmatches both input lines `"X"`, `"X"`. -/
def mbTie : Nat → Nat → Bool := fun _ _ => true

/-! ## Claim theorems -/

/-- C1: for every match relation and all `i`, `j`, the table built by
`compute_lcs_table` satisfies: `table[i][j]` is exactly the maximum number
of index-disjoint, order-preserving matching pairs between the first `i`
suppressions and the first `j` lines — some valid alignment attains the
table value, and no valid alignment exceeds it (at `i = |S|`, `j = |L|`
this is the final cell). -/
theorem compute_lcs_table_optimal (mb : Nat → Nat → Bool) (i j : Nat) :
    (∃ ps, isAlignment mb i j ps ∧ ps.length = compute_lcs_table mb i j) ∧
    ∀ ps, isAlignment mb i j ps → ps.length ≤ compute_lcs_table mb i j :=
  ⟨lcs_achieve mb (i + j) i j le_rfl, fun ps h => lcs_ub mb (i + j) i j ps le_rfl h⟩

theorem compute_lcs_table_optimal_witness :
    isAlignment (fun k l => k == l) 2 2 [(0, 0), (1, 1)] ∧
    ([(0, 0), (1, 1)] : List (Nat × Nat)).length ≤
      compute_lcs_table (fun k l => k == l) 2 2 :=
  ⟨by decide,
    (compute_lcs_table_optimal (fun k l => k == l) 2 2).2 [(0, 0), (1, 1)] (by decide)⟩

/-- C2: the fast-path pipeline (prefix scan, truncation by the returned
common length, then table and backtrace on the residuals, with residual
indices renamed back to the original sequences) produces exactly the event
sequence of the full table/backtrace on the untruncated sequences, and the
counts returned by the residual backtrace equal those of the full
backtrace. -/
theorem fast_path_equivalence (mb : Nat → Nat → Bool) (S L : Nat) :
    engine_events mb S L = show_diffs_from_lcs_table mb (compute_lcs_table mb) S L ∧
    diffCounts (show_diffs_from_lcs_table
        (mbShift (compute_initial_matching_sequence mb S L) mb)
        (compute_lcs_table (mbShift (compute_initial_matching_sequence mb S L) mb))
        (S - compute_initial_matching_sequence mb S L)
        (L - compute_initial_matching_sequence mb S L)) =
      diffCounts (show_diffs_from_lcs_table mb (compute_lcs_table mb) S L) := by
  have h1 : engine_events mb S L =
      show_diffs_from_lcs_table mb (compute_lcs_table mb) S L :=
    engine_shift (compute_initial_matching_sequence mb S L) mb S L rfl
  refine ⟨h1, ?_⟩
  rw [← engine_shift (compute_initial_matching_sequence mb S L) mb S L rfl,
    diffCounts_append, diffCounts_initial_matches, diffCounts_map_shiftEvent]
  simp

/-- C3: at every non-terminal cursor `(i, j)`, the backtrace loop emits
exactly the event and performs exactly the cursor move prescribed by the
six classification rules of spec §4.3 in their fixed precedence order
(`specRuleStep`); in particular the two `UnmatchedLine`-preferring tie
cases are instances of this equation. -/
theorem backtrace_step_follows_spec_rules (mb : Nat → Nat → Bool)
    (t : Nat → Nat → Nat) (fuel i j : Nat) (h : ¬(i = 0 ∧ j = 0)) :
    showDiffsAux mb t (fuel + 1) i j =
      (specRuleStep mb t i j).1 ::
        showDiffsAux mb t fuel (specRuleStep mb t i j).2.1 (specRuleStep mb t i j).2.2 :=
  showDiffsAux_succ mb t fuel i j h

theorem backtrace_step_follows_spec_rules_witness :
    showDiffsAux (fun _ _ => false) (fun _ _ => 0) 2 1 1 =
      (specRuleStep (fun _ _ => false) (fun _ _ => 0) 1 1).1 ::
        showDiffsAux (fun _ _ => false) (fun _ _ => 0) 1
          (specRuleStep (fun _ _ => false) (fun _ _ => 0) 1 1).2.1
          (specRuleStep (fun _ _ => false) (fun _ _ => 0) 1 1).2.2 :=
  backtrace_step_follows_spec_rules (fun _ _ => false) (fun _ _ => 0) 1 1 1 (by decide)

/-- C4, counterexample: on the scenario suppressions `["^X$"]`,
lines `["X", "X"]` (the single suppression fullmatches both lines, modelled
by `mbTie`), the engine does NOT report line 0 as unmatched with the
suppression matched to line 1 — the claimed output is refuted. -/
theorem tie_break_scenario_counterexample :
    ¬(DiffEvent.UnmatchedLine 0 ∈ engine_events mbTie 1 2 ∧
      DiffEvent.Match 0 1 ∈ engine_events mbTie 1 2 ∧
      diffCounts (engine_events mbTie 1 2) = (0, 1)) := by decide

/-- C4, amended: on suppressions `["^X$"]`, lines `["X", "X"]`, the engine
matches the suppression against the earlier line (index 0) and reports the
later line (index 1) as unmatched, with counts `(0, 1)`. -/
theorem tie_break_scenario_amended :
    engine_events mbTie 1 2 = [.Match 0 0, .UnmatchedLine 1] ∧
    diffCounts (engine_events mbTie 1 2) = (0, 1) := by decide

/-- C5: every interior cell of the table equals one of
`table[i-1][j]`, `table[i][j-1]`, `table[i-1][j-1] + 1`; the table is
monotonically non-decreasing along each row and column, and the border row
and column are zero. -/
theorem lcs_table_cell_invariant (mb : Nat → Nat → Bool) (i j : Nat) :
    (compute_lcs_table mb (i + 1) (j + 1) = compute_lcs_table mb i (j + 1) ∨
     compute_lcs_table mb (i + 1) (j + 1) = compute_lcs_table mb (i + 1) j ∨
     compute_lcs_table mb (i + 1) (j + 1) = compute_lcs_table mb i j + 1) ∧
    compute_lcs_table mb i j ≤ compute_lcs_table mb i (j + 1) ∧
    compute_lcs_table mb i j ≤ compute_lcs_table mb (i + 1) j ∧
    compute_lcs_table mb 0 j = 0 ∧ compute_lcs_table mb i 0 = 0 := by
  refine ⟨?_, lcs_mono_right mb i j, lcs_mono_left mb i j,
    compute_lcs_table_zero_left mb j, compute_lcs_table_zero_right mb i⟩
  rw [compute_lcs_table_succ_succ]
  by_cases hm : mb i j = true
  · rw [if_pos hm]
    exact Or.inr (Or.inr rfl)
  · rw [if_neg hm]
    rcases le_total (compute_lcs_table mb (i + 1) j)
        (compute_lcs_table mb i (j + 1)) with hle | hle
    · exact Or.inl (by rw [Nat.max_eq_right hle])
    · exact Or.inr (Or.inl (by rw [Nat.max_eq_left hle]))

/-- C6: whenever the final `else` branch of the classification is reached
(`i > 0`, `j > 0`, no match at `(i-1, j-1)`, `table[i][j-1]` neither
greater than nor equal to `table[i-1][j]`), the asserted condition
`table[i][j-1] < table[i-1][j]` holds — the conditions of rules 4/5 and
rule 6 are mutually exclusive and exhaustive, so the `assert` of line 169
can never fire. -/
theorem backtrace_assert_never_fires (mb : Nat → Nat → Bool) (i j : Nat)
    (hi : 0 < i) (hj : 0 < j) (hm : mb (i - 1) (j - 1) = false)
    (h4 : ¬(compute_lcs_table mb i (j - 1) > compute_lcs_table mb (i - 1) j))
    (h5 : ¬(compute_lcs_table mb i (j - 1) = compute_lcs_table mb (i - 1) j)) :
    compute_lcs_table mb i (j - 1) < compute_lcs_table mb (i - 1) j := by
  omega

theorem backtrace_assert_never_fires_witness :
    compute_lcs_table (fun k l => k == 0 && l == 0) 2 0 <
      compute_lcs_table (fun k l => k == 0 && l == 0) 1 1 :=
  backtrace_assert_never_fires (fun k l => k == 0 && l == 0) 2 1 (by decide) (by decide)
    (by decide) (by decide) (by decide)

/-- C7: the output-order event sequence covers each suppression index
`0, …, S-1` exactly once (in ascending order) and each line index
`0, …, L-1` exactly once, with no omission or duplication; consequently
`unmatched_suppressions + #matches = S` and
`unmatched_lines + #matches = L`. -/
theorem backtrace_event_coverage (mb : Nat → Nat → Bool) (S L : Nat) :
    supIndices (show_diffs_from_lcs_table mb (compute_lcs_table mb) S L) =
      List.range S ∧
    lineIndices (show_diffs_from_lcs_table mb (compute_lcs_table mb) S L) =
      List.range L ∧
    (diffCounts (show_diffs_from_lcs_table mb (compute_lcs_table mb) S L)).1 +
      countMatches (show_diffs_from_lcs_table mb (compute_lcs_table mb) S L) = S ∧
    (diffCounts (show_diffs_from_lcs_table mb (compute_lcs_table mb) S L)).2 +
      countMatches (show_diffs_from_lcs_table mb (compute_lcs_table mb) S L) = L := by
  obtain ⟨hs, hl⟩ := show_diffs_indices mb (compute_lcs_table mb) S L
  have h1 := supIndices_length (show_diffs_from_lcs_table mb (compute_lcs_table mb) S L)
  have h2 := lineIndices_length (show_diffs_from_lcs_table mb (compute_lcs_table mb) S L)
  rw [hs] at h1
  rw [hl] at h2
  simp only [List.length_range] at h1 h2
  refine ⟨hs, hl, ?_, ?_⟩
  · unfold diffCounts
    dsimp only
    omega
  · unfold diffCounts
    dsimp only
    omega

/-- C8, counterexample: for the single suppression and single line that
match (`mbTie`, `S = L = 1`), the backtrace emits one `Match` event, so the
event total is `1`, but `|S| + |L| - 2·(#matches) = 0` — the claimed total
is refuted. -/
theorem backtrace_event_count_counterexample :
    ¬((show_diffs_from_lcs_table mbTie (compute_lcs_table mbTie) 1 1).length =
      1 + 1 - 2 * countMatches
        (show_diffs_from_lcs_table mbTie (compute_lcs_table mbTie) 1 1)) := by decide

/-- C8, amended: the total number of events equals `S + L - #matches`
(one event per element of both sequences combined, with each matched pair
represented by a single `Match` event; `S + L - 2·#matches` is instead the
number of unmatched events alone). -/
theorem backtrace_event_count (mb : Nat → Nat → Bool) (S L : Nat) :
    (show_diffs_from_lcs_table mb (compute_lcs_table mb) S L).length =
      S + L - countMatches (show_diffs_from_lcs_table mb (compute_lcs_table mb) S L) := by
  obtain ⟨hs, hl⟩ := show_diffs_indices mb (compute_lcs_table mb) S L
  have h1 := supIndices_length (show_diffs_from_lcs_table mb (compute_lcs_table mb) S L)
  have h2 := lineIndices_length (show_diffs_from_lcs_table mb (compute_lcs_table mb) S L)
  have h3 := length_eq_counts (show_diffs_from_lcs_table mb (compute_lcs_table mb) S L)
  rw [hs] at h1
  rw [hl] at h2
  simp only [List.length_range] at h1 h2
  omega

/-- C9: the classification and the returned counters of the backtrace are
independent of the module-level configuration globals (`verbosity` and
`max_linenr_width`): for any two values of each, the counters agree, equal
the tag tallies of the pure event classification, and every iteration's
classification and cursor move agree. -/
theorem engine_independent_of_globals (v w v' w' : Nat) (t : Nat → Nat → Nat)
    (rs : List Regexp) (ls : List Line) :
    (show_diffs_from_lcs_table_full v w t rs ls).2 =
      (show_diffs_from_lcs_table_full v' w' t rs ls).2 ∧
    (show_diffs_from_lcs_table_full v w t rs ls).2 =
      diffCounts (show_diffs_from_lcs_table (mbOf rs ls) t rs.length ls.length) ∧
    ∀ i j, (classify_full v w t rs ls i j).2 = (classify_full v' w' t rs ls i j).2 := by
  refine ⟨?_, show_diffs_full_counts v w t rs ls, ?_⟩
  · rw [show_diffs_full_counts v w t rs ls, show_diffs_full_counts v' w' t rs ls]
  · intro i j
    rw [classify_full_codeStep, classify_full_codeStep]

/-- C10: the backtrace over the table built by `compute_lcs_table` emits
exactly `table[S][L]` `Match` events, and in output (ascending) order the
matched `(suppression, line)` pairs are strictly increasing in both
components, within range, and related by the match predicate — a valid
alignment of exactly the size claimed by the table. -/
theorem backtrace_realizes_table_value (mb : Nat → Nat → Bool) (S L : Nat) :
    countMatches (show_diffs_from_lcs_table mb (compute_lcs_table mb) S L) =
      compute_lcs_table mb S L ∧
    isAlignment mb S L
      (matchPairs (show_diffs_from_lcs_table mb (compute_lcs_table mb) S L)) := by
  obtain ⟨h1, h2, h3⟩ := showDiffsAux_matchPairs mb (S + L) S L le_rfl
  constructor
  · rw [countMatches_eq_matchPairs_length]
    unfold show_diffs_from_lcs_table
    simp only [matchPairs] at h1 ⊢
    rw [filterMap_rev, List.length_reverse]
    exact h1
  · constructor
    · unfold show_diffs_from_lcs_table
      simp only [matchPairs] at h2 ⊢
      rw [filterMap_rev, List.pairwise_reverse]
      exact h2
    · intro p hp
      unfold show_diffs_from_lcs_table at hp
      simp only [matchPairs] at h3 hp
      rw [filterMap_rev, List.mem_reverse] at hp
      exact h3 p hp

end Scafaps

